import Mathlib

/-!
# Verification of the `abi_extractor` tool (src/bin/abi_extractor/src/main.rs)

The tool parses a Rust source module with `syn` and walks the syntax tree:
for every top-level `impl` whose trait path ends in `AlkaneResponder` it
records the implementing type's last path segment as the contract name and,
inside every member function named `execute`, scans the top-level statements
for a bare `match` statement, turning each integer-literal arm into an
`AbiMethod`.

We embed the relevant fragment of the `syn` 2.x syntax tree and transcribe
`extract_abi` into an `Except`-valued function: each `unwrap` of the source
(`segments.last().unwrap()`, `base10_parse().unwrap()`) becomes an error that
aborts extraction, matching the panic behavior of the binary.
-/

namespace Alkali

/-- A `syn::Path`: we keep only the identifier of each segment.  A path
produced by the parser always has at least one segment; the extractor calls
`segments.last().unwrap()`, so an empty path would make it panic. -/
structure SynPath where
  segments : List String
deriving DecidableEq, Repr

/-- The fragment of `syn::Pat` the extractor distinguishes.  Only
`Pat::Lit` with an integer literal matters; every other pattern shape is
skipped.  A `LitInt`'s payload is its base-10 digit token (what
`base10_parse` consumes). -/
inductive SynLit where
  | int (token : String)
  | other
deriving DecidableEq, Repr

inductive SynPat where
  | lit (l : SynLit)
  | wild
  | ident (name : String)
  | range
  | other
deriving DecidableEq, Repr

mutual
/-- The fragment of `syn::Expr` the extractor can meet as a statement head. -/
inductive SynExpr where
  | matchE (arms : List (SynPat × SynExpr))
  | ret (e : SynExpr)
  | paren (e : SynExpr)
  | ifE (thenBranch : List SynStmt)
  | loopE (body : List SynStmt)
  | blockE (stmts : List SynStmt)
  | otherE

/-- `syn::Stmt`: a statement-expression with or without semicolon
(`Stmt::Expr(e, semi)`), a `let` binding (`Stmt::Local`), or anything else. -/
inductive SynStmt where
  | exprStmt (e : SynExpr) (hasSemi : Bool)
  | letStmt (init : SynExpr)
  | itemStmt
  | otherStmt
end

/-- The fragment of `syn::Type` the extractor distinguishes: only
`Type::Path` is inspected; every other type shape is ignored. -/
inductive SynType where
  | path (p : SynPath)
  | tuple
  | reference
  | otherTy
deriving DecidableEq, Repr

/-- `syn::ImplItem`: a member function with its name and body statements,
or any other member. -/
inductive SynImplItem where
  | fn (ident : String) (stmts : List SynStmt)
  | otherItem

/-- `syn::ItemImpl`: the trait being implemented (`None` for inherent
impls), the self type, and the members. -/
structure SynItemImpl where
  trait_ : Option SynPath
  self_ty : SynType
  items : List SynImplItem

/-- A top-level `syn::Item`. -/
inductive SynItem where
  | implItem (i : SynItemImpl)
  | otherTop

/-- A parsed module (`syn::File`): the ordered top-level items. -/
structure SynFile where
  items : List SynItem

/-- Output record, mirroring `struct AbiMethod`.  `opcode` is a `u64` in the
source; every value the extractor constructs is `< 2^64` because
`base10_parse::<u64>` enforces the bound. -/
structure AbiMethod where
  name : String
  opcode : Nat
  inputs : List String
  outputs : List String
deriving DecidableEq, Repr

/-- Output record, mirroring `struct AlkanesABI`. -/
structure AlkanesABI where
  name : String
  methods : List AbiMethod
deriving DecidableEq, Repr

/-- The ways `extract_abi` can panic: an `unwrap` of `None`
(`segments.last().unwrap()` on an empty path) or a failed
`base10_parse::<u64>().unwrap()`. -/
inductive ExtractError where
  | unwrapNone
  | literalOutOfRange
deriving DecidableEq, Repr

/-- `slice.last().unwrap()`: the last element, panicking on an empty list. -/
def lastSegment : List String → Except ExtractError String
  | [] => .error .unwrapNone
  | [s] => .ok s
  | _ :: s :: rest => lastSegment (s :: rest)

/-- The numeric value of one decimal digit character, `none` otherwise. -/
def decDigit (c : Char) : Option Nat :=
  if c.isDigit then some (c.toNat - 48) else none

/-- Left-to-right decimal evaluation of a character list. -/
def parseDigits : List Char → Nat → Option Nat
  | [], acc => some acc
  | c :: cs, acc =>
    match decDigit c with
    | some d => parseDigits cs (acc * 10 + d)
    | none => none

/-- `LitInt::base10_parse::<u64>()`: parse the base-10 digit token, failing
when it is empty, not a digit string, or its value does not fit in 64
unsigned bits. -/
def base10_parse_u64 (token : String) : Except ExtractError Nat :=
  match token.data with
  | [] => .error .literalOutOfRange
  | cs =>
    match parseDigits cs 0 with
    | some n => if n < 2 ^ 64 then .ok n else .error .literalOutOfRange
    | none => .error .literalOutOfRange

instance exceptDecEq {ε α : Type} [DecidableEq ε] [DecidableEq α] :
    DecidableEq (Except ε α) := fun x y =>
  match x, y with
  | .ok a, .ok b =>
    if h : a = b then .isTrue (h ▸ rfl)
    else .isFalse (fun c => h (Except.ok.inj c))
  | .error e, .error e' =>
    if h : e = e' then .isTrue (h ▸ rfl)
    else .isFalse (fun c => h (Except.error.inj c))
  | .ok _, .error _ => .isFalse (fun c => Except.noConfusion c)
  | .error _, .ok _ => .isFalse (fun c => Except.noConfusion c)

/-- The inner arm loop of `extract_abi`: for each arm whose pattern is
`Pat::Lit(PatLit { lit: Lit::Int(lit_int), .. })`, parse the opcode (a panic
of the `unwrap` is an error) and push `AbiMethod { name:
format!("method_{}", opcode), opcode, inputs: vec![], outputs: vec![] }`;
every other arm is skipped. -/
def processArms : List (SynPat × SynExpr) → List AbiMethod →
    Except ExtractError (List AbiMethod)
  | [], acc => .ok acc
  | (pat, _) :: rest, acc =>
    match pat with
    | .lit (.int token) =>
      match base10_parse_u64 token with
      | .ok opcode =>
        processArms rest
          (acc ++ [⟨"method_" ++ toString opcode, opcode, [], []⟩])
      | .error e => .error e
    | _ => processArms rest acc

/-- The statement loop of `extract_abi`: only a statement of shape
`Stmt::Expr(Expr::Match(ExprMatch { arms, .. }), _)` is inspected; its arms
are processed in order.  Every other statement is skipped. -/
def processStmts : List SynStmt → List AbiMethod →
    Except ExtractError (List AbiMethod)
  | [], acc => .ok acc
  | .exprStmt (.matchE arms) _ :: rest, acc =>
    match processArms arms acc with
    | .ok acc' => processStmts rest acc'
    | .error e => .error e
  | _ :: rest, acc => processStmts rest acc

/-- The member loop of `extract_abi`: every `ImplItem::Fn` whose name is
`execute` has its body statements scanned; the loop continues past the first
match, so several `execute` members all contribute. -/
def processImplItems : List SynImplItem → List AbiMethod →
    Except ExtractError (List AbiMethod)
  | [], acc => .ok acc
  | .fn ident stmts :: rest, acc =>
    if ident = "execute" then
      match processStmts stmts acc with
      | .ok acc' => processImplItems rest acc'
      | .error e => .error e
    else
      processImplItems rest acc
  | .otherItem :: rest, acc => processImplItems rest acc

/-- The `if let Type::Path(struct_path) = &*item_impl.self_ty` step of the
item loop: a path self type overwrites the contract name with its last
segment (unwrap), any other self type leaves the current name unchanged. -/
def resolveName (sty : SynType) (name : String) : Except ExtractError String :=
  match sty with
  | .path structPath => lastSegment structPath.segments
  | _ => .ok name

/-- The top-level item loop, threading the mutable state
`(contract_name, methods)`.  For an `Item::Impl` with a trait reference the
code first unwraps the trait path's last segment and compares it with
`"AlkaneResponder"`; on a match it overwrites `contract_name` when the self
type is a `Type::Path` (see `resolveName`) and then processes the
members. -/
def processItems : List SynItem → String → List AbiMethod →
    Except ExtractError (String × List AbiMethod)
  | [], name, acc => .ok (name, acc)
  | .implItem ii :: rest, name, acc =>
    match ii.trait_ with
    | none => processItems rest name acc
    | some traitPath =>
      match lastSegment traitPath.segments with
      | .ok lastSeg =>
        if lastSeg = "AlkaneResponder" then
          match resolveName ii.self_ty name with
          | .ok name' =>
            match processImplItems ii.items acc with
            | .ok acc' => processItems rest name' acc'
            | .error e => .error e
          | .error e => .error e
        else
          processItems rest name acc
      | .error e => .error e
  | .otherTop :: rest, name, acc => processItems rest name acc

/-- `extract_abi`, transcribed from `src/bin/abi_extractor/src/main.rs`
lines 19–74 (the `syn::parse_file` front end is the external parser and is
not modelled; extraction starts from the parsed `SynFile`). -/
def extract_abi (f : SynFile) : Except ExtractError AlkanesABI :=
  match processItems f.items "UnknownContract" [] with
  | .ok (name, methods) => .ok ⟨name, methods⟩
  | .error e => .error e

/-!
## Pure characterization layer

`extract_abi` threads an accumulator through nested loops.  To reason about
it we give, for each loop, the pure value it appends and the condition under
which it does not panic, and prove (below) that the loops compute exactly
these.
-/

/-- `true` iff an `Except` value is `ok`. -/
def exceptOk {ε α : Type} : Except ε α → Bool
  | .ok _ => true
  | .error _ => false

/-- The `AbiMethod` one arm contributes: `some` exactly for an
integer-literal pattern whose token parses as a `u64`. -/
def armMethod (a : SynPat × SynExpr) : Option AbiMethod :=
  match a.1 with
  | .lit (.int token) =>
    match base10_parse_u64 token with
    | .ok n => some ⟨"method_" ++ toString n, n, [], []⟩
    | .error _ => none
  | _ => none

/-- An arm does not make the extractor panic: either it is not an
integer-literal pattern, or its token parses. -/
def armOk (a : SynPat × SynExpr) : Bool :=
  match a.1 with
  | .lit (.int token) => exceptOk (base10_parse_u64 token)
  | _ => true

/-- A bare `match` statement-expression, the only statement shape the
extractor recognizes. -/
def isBareMatch : SynStmt → Bool
  | .exprStmt (.matchE _) _ => true
  | _ => false

/-- The methods one statement contributes. -/
def stmtMethods : SynStmt → List AbiMethod
  | .exprStmt (.matchE arms) _ => arms.filterMap armMethod
  | _ => []

/-- A statement does not make the extractor panic. -/
def stmtOk : SynStmt → Bool
  | .exprStmt (.matchE arms) _ => arms.all armOk
  | _ => true

/-- The methods one impl member contributes. -/
def implItemMethods : SynImplItem → List AbiMethod
  | .fn ident stmts => if ident = "execute" then stmts.flatMap stmtMethods else []
  | .otherItem => []

/-- An impl member does not make the extractor panic. -/
def implItemOk : SynImplItem → Bool
  | .fn ident stmts => if ident = "execute" then stmts.all stmtOk else true
  | .otherItem => true

/-- A top-level item is an `impl` of a trait whose path's last segment is
`AlkaneResponder`. -/
def itemIsMatch : SynItem → Bool
  | .implItem ii =>
    match ii.trait_ with
    | some traitPath =>
      match lastSegment traitPath.segments with
      | .ok s => if s = "AlkaneResponder" then true else false
      | .error _ => false
    | none => false
  | .otherTop => false

/-- A top-level item does not make the extractor panic: its trait path's
last segment resolves and, when it matches, the self-type name (if the self
type is a path) resolves and all members are panic-free. -/
def itemOk : SynItem → Bool
  | .implItem ii =>
    match ii.trait_ with
    | some traitPath =>
      match lastSegment traitPath.segments with
      | .ok s =>
        if s = "AlkaneResponder" then
          (match ii.self_ty with
           | .path structPath => exceptOk (lastSegment structPath.segments)
           | _ => true)
          && ii.items.all implItemOk
        else true
      | .error _ => false
    | none => true
  | .otherTop => true

/-- The methods one top-level item contributes. -/
def itemMethods : SynItem → List AbiMethod
  | .implItem ii =>
    match ii.trait_ with
    | some traitPath =>
      match lastSegment traitPath.segments with
      | .ok s =>
        if s = "AlkaneResponder" then ii.items.flatMap implItemMethods else []
      | .error _ => []
    | none => []
  | .otherTop => []

/-- How one top-level item updates the contract name: a matching impl with a
path self type whose last segment resolves overwrites it; every other item
leaves it unchanged. -/
def itemName (prev : String) : SynItem → String
  | .implItem ii =>
    match ii.trait_ with
    | some traitPath =>
      match lastSegment traitPath.segments with
      | .ok s =>
        if s = "AlkaneResponder" then
          match resolveName ii.self_ty prev with
          | .ok nm => nm
          | .error _ => prev
        else prev
      | .error _ => prev
    | none => prev
  | .otherTop => prev

/-- The contract name a matching impl assigns, when it assigns one. -/
def nameOf : SynItem → Option String
  | .implItem ii =>
    if itemIsMatch (.implItem ii) then
      match ii.self_ty with
      | .path structPath =>
        match lastSegment structPath.segments with
        | .ok nm => some nm
        | .error _ => none
      | _ => none
    else none
  | .otherTop => none

/-- Extraction does not panic on any item of the module. -/
def fileOk (f : SynFile) : Bool := f.items.all itemOk

/-- The contract name of the whole module, folded left over the items. -/
def fileName (f : SynFile) : String := f.items.foldl itemName "UnknownContract"

/-- The concatenated methods of the whole module, in source order. -/
def fileMethods (f : SynFile) : List AbiMethod := f.items.flatMap itemMethods

/-!
## Declaration-order opcode listing (specification side)

For the order-preservation property we compare the extractor's output
against an independent listing that follows the spec's words: "arms must
appear in the output in the same order as declared in source, regardless of
numeric opcode value".
-/

/-- Follows the spec's words: the opcode an arm declares, `some` exactly for
an integer-literal pattern whose token denotes a `u64`. -/
def declaredArmOpcode (a : SynPat × SynExpr) : Option Nat :=
  match a.1 with
  | .lit (.int token) =>
    match base10_parse_u64 token with
    | .ok n => some n
    | .error _ => none
  | _ => none

/-- Follows the spec's words: the opcodes a statement declares, in arm
order. -/
def declaredStmtOpcodes : SynStmt → List Nat
  | .exprStmt (.matchE arms) _ => arms.filterMap declaredArmOpcode
  | _ => []

/-- Follows the spec's words: the opcodes an impl member declares. -/
def declaredImplItemOpcodes : SynImplItem → List Nat
  | .fn ident stmts =>
    if ident = "execute" then stmts.flatMap declaredStmtOpcodes else []
  | .otherItem => []

/-- Follows the spec's words: the opcodes a top-level item declares. -/
def declaredItemOpcodes (it : SynItem) : List Nat :=
  match it with
  | .implItem ii =>
    if itemIsMatch it then ii.items.flatMap declaredImplItemOpcodes else []
  | .otherTop => []

/-- Follows the spec's words: all opcodes declared by the module's dispatch
matches, in source order. -/
def declaredOpcodes (f : SynFile) : List Nat :=
  f.items.flatMap declaredItemOpcodes

/-- What `main` prints on stdout: the serialized ABI on success, nothing
when extraction panics. -/
def runOutput (f : SynFile) : Option AlkanesABI :=
  match extract_abi f with
  | .ok abi => some abi
  | .error _ => none

/-- The process exit status: 0 on success, 101 (the Rust panic status) when
an `unwrap` fails. -/
def runExitCode (f : SynFile) : Nat :=
  match extract_abi f with
  | .ok _ => 0
  | .error _ => 101

/-!
## Concrete example modules

Each corresponds to the Rust module described in the sibling comment; they
instantiate the claims below.
-/

/-- `match opcode { 0 => {...}, 77 => {...}, _ => {...} }`. -/
def armsFoo : List (SynPat × SynExpr) :=
  [(.lit (.int "0"), .otherE), (.lit (.int "77"), .otherE), (.wild, .otherE)]

/-- `impl AlkaneResponder for Foo { fn execute(..) { match opcode { 0 => ..,
77 => .., _ => .. } } }`. -/
def exFileC1 : SynFile :=
  ⟨[.implItem ⟨some ⟨["AlkaneResponder"]⟩, .path ⟨["Foo"]⟩,
      [.fn "execute" [.exprStmt (.matchE armsFoo) true]]⟩]⟩

/-- `impl AlkaneResponder for X { fn execute(..) { match opcode { 10 => .. } } }`. -/
def exImplC2X : SynItemImpl :=
  ⟨some ⟨["AlkaneResponder"]⟩, .path ⟨["X"]⟩,
    [.fn "execute" [.exprStmt (.matchE [(.lit (.int "10"), .otherE)]) true]]⟩

/-- `impl AlkaneResponder for Y { fn execute(..) { match opcode { 10 => ..,
3 => .. } } }` — opcode 10 duplicates the one in `exImplC2X`. -/
def exImplC2Y : SynItemImpl :=
  ⟨some ⟨["AlkaneResponder"]⟩, .path ⟨["Y"]⟩,
    [.fn "execute"
      [.exprStmt (.matchE
        [(.lit (.int "10"), .otherE), (.lit (.int "3"), .otherE)]) true]]⟩

/-- A module with the two implementations `exImplC2X`, `exImplC2Y`. -/
def exFileC2 : SynFile := ⟨[.implItem exImplC2X, .implItem exImplC2Y]⟩

/-- `impl AlkaneResponder for (A, B) { fn execute(..) { match opcode
{ 7 => .. } } }` — tuple self type, no path name. -/
def exImplC3 : SynItemImpl :=
  ⟨some ⟨["alkanes", "AlkaneResponder"]⟩, .tuple,
    [.fn "execute" [.exprStmt (.matchE [(.lit (.int "7"), .otherE)]) true]]⟩

/-- A module whose only item is `exImplC3`. -/
def exFileC3 : SynFile := ⟨[.implItem exImplC3]⟩

/-- One matching implementation with two member functions named `execute`,
the first dispatching opcode 1, the second opcode 2. -/
def exFileC4 : SynFile :=
  ⟨[.implItem ⟨some ⟨["AlkaneResponder"]⟩, .path ⟨["Foo"]⟩,
      [.fn "execute" [.exprStmt (.matchE [(.lit (.int "1"), .otherE)]) true],
       .fn "execute"
         [.exprStmt (.matchE [(.lit (.int "2"), .otherE)]) true]]⟩]⟩

/-- An impl member that is a function named `execute`. -/
def isExecuteFn : SynImplItem → Bool
  | .fn ident _ => ident = "execute"
  | .otherItem => false

/-- The member list of `exFileC4b`: three `execute` members (dispatching
opcodes 1, 2 and 3) interleaved with a non-`execute` function (whose own
dispatch match must be ignored) and a non-function member. -/
def membersC4b : List SynImplItem :=
  [.fn "execute" [.exprStmt (.matchE [(.lit (.int "1"), .otherE)]) true],
   .fn "helper" [.exprStmt (.matchE [(.lit (.int "99"), .otherE)]) true],
   .otherItem,
   .fn "execute" [.exprStmt (.matchE [(.lit (.int "2"), .otherE)]) true],
   .fn "execute" [.exprStmt (.matchE [(.lit (.int "3"), .otherE)]) true]]

/-- One matching implementation with the members `membersC4b`. -/
def exFileC4b : SynFile :=
  ⟨[.implItem ⟨some ⟨["AlkaneResponder"]⟩, .path ⟨["Foo"]⟩, membersC4b⟩]⟩

/-- A dispatch arm whose literal `18446744073709551616` is `2^64`, one past
the largest `u64`. -/
def exFileC5 : SynFile :=
  ⟨[.implItem ⟨some ⟨["AlkaneResponder"]⟩, .path ⟨["Foo"]⟩,
      [.fn "execute"
        [.exprStmt (.matchE
          [(.lit (.int "18446744073709551616"), .otherE)]) true]]⟩]⟩

/-- Arms declared in the order `5`, `1` — not sorted by opcode. -/
def exFileC6 : SynFile :=
  ⟨[.implItem ⟨some ⟨["AlkaneResponder"]⟩, .path ⟨["Foo"]⟩,
      [.fn "execute"
        [.exprStmt (.matchE
          [(.lit (.int "5"), .otherE), (.lit (.int "1"), .otherE)]) true]]⟩]⟩

/-- A module with no `AlkaneResponder` implementation: a non-impl item, an
impl of a different trait (with an `execute` dispatch that must be ignored),
and an inherent impl. -/
def exFileC7 : SynFile :=
  ⟨[.otherTop,
    .implItem ⟨some ⟨["fmt", "Display"]⟩, .path ⟨["Foo"]⟩,
      [.fn "execute"
        [.exprStmt (.matchE [(.lit (.int "1"), .otherE)]) true]]⟩,
    .implItem ⟨none, .path ⟨["Bar"]⟩, []⟩]⟩

/-- An `execute` whose matches are all hidden: bound by `let`, wrapped in
`return`, nested in an `if` branch, nested in an inner block, and
parenthesized. -/
def exFileC8 : SynFile :=
  ⟨[.implItem ⟨some ⟨["AlkaneResponder"]⟩, .path ⟨["Foo"]⟩,
      [.fn "execute"
        [.letStmt (.matchE [(.lit (.int "3"), .otherE)]),
         .exprStmt (.ret (.matchE [(.lit (.int "4"), .otherE)])) true,
         .exprStmt (.ifE
           [.exprStmt (.matchE [(.lit (.int "5"), .otherE)]) true]) false,
         .exprStmt (.blockE
           [.exprStmt (.matchE [(.lit (.int "6"), .otherE)]) true]) true,
         .exprStmt (.paren (.matchE [(.lit (.int "8"), .otherE)])) true]]⟩]⟩

/-- A matching implementation on a reference self type (no path name),
dispatching opcode 9. -/
def exImplC9 : SynItemImpl :=
  ⟨some ⟨["AlkaneResponder"]⟩, .reference,
    [.fn "execute" [.exprStmt (.matchE [(.lit (.int "9"), .otherE)]) true]]⟩

/-- An earlier matching implementation on `X` that sets the contract name. -/
def exItemsC9pre : List SynItem :=
  [.implItem ⟨some ⟨["AlkaneResponder"]⟩, .path ⟨["X"]⟩,
    [.fn "execute" [.exprStmt (.matchE [(.lit (.int "1"), .otherE)]) true]]⟩]

/-- `exItemsC9pre` followed by the reference-typed implementation. -/
def exFileC9 : SynFile := ⟨exItemsC9pre ++ [.implItem exImplC9]⟩

/-- A small module used to exercise determinism. -/
def exFileC10 : SynFile :=
  ⟨[.implItem ⟨some ⟨["AlkaneResponder"]⟩, .path ⟨["Foo"]⟩,
      [.fn "execute"
        [.exprStmt (.matchE [(.lit (.int "42"), .otherE)]) true]]⟩]⟩

/-!
## Loop characterization lemmas
-/

theorem processArms_ok (arms : List (SynPat × SynExpr)) (acc : List AbiMethod)
    (h : arms.all armOk = true) :
    processArms arms acc = .ok (acc ++ arms.filterMap armMethod) := by
  induction arms generalizing acc with
  | nil => simp [processArms]
  | cons a rest ih =>
    obtain ⟨pat, body⟩ := a
    simp only [List.all_cons, Bool.and_eq_true] at h
    obtain ⟨h1, h2⟩ := h
    cases pat with
    | lit l =>
      cases l with
      | int token =>
        cases hb : base10_parse_u64 token with
        | ok n =>
          simp only [processArms, hb, List.filterMap_cons, armMethod]
          rw [ih _ h2]
          simp
        | error e =>
          simp only [armOk, hb, exceptOk] at h1
          exact absurd h1 (by simp)
      | other =>
        simp only [processArms, List.filterMap_cons, armMethod]
        exact ih _ h2
    | wild =>
      simp only [processArms, List.filterMap_cons, armMethod]
      exact ih _ h2
    | ident nm =>
      simp only [processArms, List.filterMap_cons, armMethod]
      exact ih _ h2
    | range =>
      simp only [processArms, List.filterMap_cons, armMethod]
      exact ih _ h2
    | other =>
      simp only [processArms, List.filterMap_cons, armMethod]
      exact ih _ h2

theorem processArms_ok_elim (arms : List (SynPat × SynExpr))
    (acc r : List AbiMethod) (h : processArms arms acc = .ok r) :
    arms.all armOk = true ∧ r = acc ++ arms.filterMap armMethod := by
  induction arms generalizing acc with
  | nil =>
    simp only [processArms, Except.ok.injEq] at h
    simp [h]
  | cons a rest ih =>
    obtain ⟨pat, body⟩ := a
    cases pat with
    | lit l =>
      cases l with
      | int token =>
        cases hb : base10_parse_u64 token with
        | ok n =>
          simp only [processArms, hb] at h
          obtain ⟨ha, hr⟩ := ih _ h
          refine ⟨by simp [List.all_cons, armOk, hb, exceptOk, ha], ?_⟩
          simp only [List.filterMap_cons, armMethod, hb]
          simp [hr]
        | error e =>
          simp only [processArms, hb] at h
          exact absurd h (by simp)
      | other =>
        simp only [processArms] at h
        obtain ⟨ha, hr⟩ := ih _ h
        exact ⟨by simp [List.all_cons, armOk, ha],
          by simp [List.filterMap_cons, armMethod, hr]⟩
    | wild =>
      simp only [processArms] at h
      obtain ⟨ha, hr⟩ := ih _ h
      exact ⟨by simp [List.all_cons, armOk, ha],
        by simp [List.filterMap_cons, armMethod, hr]⟩
    | ident nm =>
      simp only [processArms] at h
      obtain ⟨ha, hr⟩ := ih _ h
      exact ⟨by simp [List.all_cons, armOk, ha],
        by simp [List.filterMap_cons, armMethod, hr]⟩
    | range =>
      simp only [processArms] at h
      obtain ⟨ha, hr⟩ := ih _ h
      exact ⟨by simp [List.all_cons, armOk, ha],
        by simp [List.filterMap_cons, armMethod, hr]⟩
    | other =>
      simp only [processArms] at h
      obtain ⟨ha, hr⟩ := ih _ h
      exact ⟨by simp [List.all_cons, armOk, ha],
        by simp [List.filterMap_cons, armMethod, hr]⟩

theorem stmtMethods_of_not_bare (s : SynStmt) (hs : isBareMatch s = false) :
    stmtMethods s = [] := by
  cases s with
  | exprStmt e b => cases e <;> simp_all [isBareMatch, stmtMethods]
  | letStmt i => simp [stmtMethods]
  | itemStmt => simp [stmtMethods]
  | otherStmt => simp [stmtMethods]

theorem stmtOk_of_not_bare (s : SynStmt) (hs : isBareMatch s = false) :
    stmtOk s = true := by
  cases s with
  | exprStmt e b => cases e <;> simp_all [isBareMatch, stmtOk]
  | letStmt i => simp [stmtOk]
  | itemStmt => simp [stmtOk]
  | otherStmt => simp [stmtOk]

theorem processStmts_cons_skip (s : SynStmt) (hs : isBareMatch s = false)
    (rest : List SynStmt) (acc : List AbiMethod) :
    processStmts (s :: rest) acc = processStmts rest acc := by
  cases s with
  | exprStmt e b => cases e <;> simp_all [isBareMatch, processStmts]
  | letStmt i => simp [processStmts]
  | itemStmt => simp [processStmts]
  | otherStmt => simp [processStmts]

theorem processStmts_ok (stmts : List SynStmt) (acc : List AbiMethod)
    (h : stmts.all stmtOk = true) :
    processStmts stmts acc = .ok (acc ++ stmts.flatMap stmtMethods) := by
  induction stmts generalizing acc with
  | nil => simp [processStmts]
  | cons s rest ih =>
    simp only [List.all_cons, Bool.and_eq_true] at h
    obtain ⟨h1, h2⟩ := h
    by_cases hbm : isBareMatch s = true
    · cases s with
      | exprStmt e b =>
        cases e with
        | matchE arms =>
          simp only [stmtOk] at h1
          simp only [processStmts, processArms_ok _ _ h1]
          rw [ih _ h2]
          simp [stmtMethods]
        | ret e' => simp [isBareMatch] at hbm
        | paren e' => simp [isBareMatch] at hbm
        | ifE tb => simp [isBareMatch] at hbm
        | loopE bd => simp [isBareMatch] at hbm
        | blockE ss => simp [isBareMatch] at hbm
        | otherE => simp [isBareMatch] at hbm
      | letStmt i => simp [isBareMatch] at hbm
      | itemStmt => simp [isBareMatch] at hbm
      | otherStmt => simp [isBareMatch] at hbm
    · rw [Bool.not_eq_true] at hbm
      rw [processStmts_cons_skip s hbm, ih _ h2]
      simp [stmtMethods_of_not_bare s hbm]

theorem processStmts_ok_elim (stmts : List SynStmt) (acc r : List AbiMethod)
    (h : processStmts stmts acc = .ok r) :
    stmts.all stmtOk = true ∧ r = acc ++ stmts.flatMap stmtMethods := by
  induction stmts generalizing acc with
  | nil =>
    simp only [processStmts, Except.ok.injEq] at h
    simp [h]
  | cons s rest ih =>
    by_cases hbm : isBareMatch s = true
    · cases s with
      | exprStmt e b =>
        cases e with
        | matchE arms =>
          simp only [processStmts] at h
          cases hp : processArms arms acc with
          | ok acc' =>
            rw [hp] at h
            obtain ⟨ha, hr⟩ := processArms_ok_elim arms acc acc' hp
            obtain ⟨hrest, hr2⟩ := ih _ h
            refine ⟨by simp [List.all_cons, stmtOk, ha, hrest], ?_⟩
            simp [hr2, hr, stmtMethods]
          | error e' =>
            rw [hp] at h
            exact absurd h (by simp)
        | ret e' => simp [isBareMatch] at hbm
        | paren e' => simp [isBareMatch] at hbm
        | ifE tb => simp [isBareMatch] at hbm
        | loopE bd => simp [isBareMatch] at hbm
        | blockE ss => simp [isBareMatch] at hbm
        | otherE => simp [isBareMatch] at hbm
      | letStmt i => simp [isBareMatch] at hbm
      | itemStmt => simp [isBareMatch] at hbm
      | otherStmt => simp [isBareMatch] at hbm
    · rw [Bool.not_eq_true] at hbm
      rw [processStmts_cons_skip s hbm] at h
      obtain ⟨hrest, hr⟩ := ih _ h
      exact ⟨by simp [List.all_cons, stmtOk_of_not_bare s hbm, hrest],
        by simp [hr, stmtMethods_of_not_bare s hbm]⟩

theorem processImplItems_ok (items : List SynImplItem) (acc : List AbiMethod)
    (h : items.all implItemOk = true) :
    processImplItems items acc = .ok (acc ++ items.flatMap implItemMethods) := by
  induction items generalizing acc with
  | nil => simp [processImplItems]
  | cons it rest ih =>
    simp only [List.all_cons, Bool.and_eq_true] at h
    obtain ⟨h1, h2⟩ := h
    cases it with
    | fn ident stmts =>
      by_cases he : ident = "execute"
      · subst he
        have h1' : stmts.all stmtOk = true := by simpa [implItemOk] using h1
        simp only [processImplItems, if_pos rfl, processStmts_ok _ _ h1']
        rw [ih _ h2]
        simp [implItemMethods]
      · simp only [processImplItems, if_neg he]
        rw [ih _ h2]
        simp [implItemMethods, if_neg he]
    | otherItem =>
      simp only [processImplItems]
      rw [ih _ h2]
      simp [implItemMethods]

theorem processImplItems_ok_elim (items : List SynImplItem)
    (acc r : List AbiMethod) (h : processImplItems items acc = .ok r) :
    items.all implItemOk = true ∧ r = acc ++ items.flatMap implItemMethods := by
  induction items generalizing acc with
  | nil =>
    simp only [processImplItems, Except.ok.injEq] at h
    simp [h]
  | cons it rest ih =>
    cases it with
    | fn ident stmts =>
      by_cases he : ident = "execute"
      · subst he
        simp only [processImplItems, if_pos rfl] at h
        cases hp : processStmts stmts acc with
        | ok acc' =>
          rw [hp] at h
          obtain ⟨hst, hr⟩ := processStmts_ok_elim stmts acc acc' hp
          obtain ⟨hrest, hr2⟩ := ih _ h
          refine ⟨by simp [List.all_cons, implItemOk, hst, hrest], ?_⟩
          simp [hr2, hr, implItemMethods]
        | error e' =>
          rw [hp] at h
          exact absurd h (by simp)
      · simp only [processImplItems, if_neg he] at h
        obtain ⟨hrest, hr⟩ := ih _ h
        exact ⟨by simp [List.all_cons, implItemOk, if_neg he, hrest],
          by simp [hr, implItemMethods, if_neg he]⟩
    | otherItem =>
      simp only [processImplItems] at h
      obtain ⟨hrest, hr⟩ := ih _ h
      exact ⟨by simp [List.all_cons, implItemOk, hrest],
        by simp [hr, implItemMethods]⟩

theorem itemOk_impl (tp : SynPath) (sty : SynType) (iits : List SynImplItem)
    (hls : lastSegment tp.segments = .ok "AlkaneResponder")
    (nm name : String) (hn : resolveName sty name = .ok nm)
    (hmem : iits.all implItemOk = true) :
    itemOk (.implItem ⟨some tp, sty, iits⟩) = true := by
  cases sty <;> simp_all [itemOk, resolveName, exceptOk]

theorem processItems_ok (items : List SynItem) (name : String)
    (acc : List AbiMethod) (h : items.all itemOk = true) :
    processItems items name acc =
      .ok (items.foldl itemName name, acc ++ items.flatMap itemMethods) := by
  induction items generalizing name acc with
  | nil => simp [processItems]
  | cons it rest ih =>
    simp only [List.all_cons, Bool.and_eq_true] at h
    obtain ⟨h1, h2⟩ := h
    cases it with
    | otherTop =>
      simp only [processItems]
      rw [ih _ _ h2]
      simp [itemName, itemMethods]
    | implItem ii =>
      obtain ⟨tr, sty, iits⟩ := ii
      cases tr with
      | none =>
        simp only [processItems]
        rw [ih _ _ h2]
        simp [itemName, itemMethods]
      | some tp =>
        cases hls : lastSegment tp.segments with
        | error e => simp [itemOk, hls] at h1
        | ok s =>
          by_cases hs : s = "AlkaneResponder"
          · subst hs
            cases sty with
            | path p =>
              cases hlp : lastSegment p.segments with
              | error e => simp [itemOk, hls, hlp, exceptOk] at h1
              | ok nm =>
                simp [itemOk, hls, hlp, exceptOk] at h1
                have h1' : iits.all implItemOk = true := List.all_eq_true.mpr h1
                simp only [processItems, hls, if_pos rfl, if_true,
                  resolveName, hlp, processImplItems_ok _ _ h1']
                rw [ih _ _ h2]
                simp [itemName, hls, resolveName, hlp, itemMethods]
            | tuple =>
              simp [itemOk, hls] at h1
              have h1' : iits.all implItemOk = true := List.all_eq_true.mpr h1
              simp only [processItems, hls, if_pos rfl, if_true, resolveName,
                processImplItems_ok _ _ h1']
              rw [ih _ _ h2]
              simp [itemName, hls, resolveName, itemMethods]
            | reference =>
              simp [itemOk, hls] at h1
              have h1' : iits.all implItemOk = true := List.all_eq_true.mpr h1
              simp only [processItems, hls, if_pos rfl, if_true, resolveName,
                processImplItems_ok _ _ h1']
              rw [ih _ _ h2]
              simp [itemName, hls, resolveName, itemMethods]
            | otherTy =>
              simp [itemOk, hls] at h1
              have h1' : iits.all implItemOk = true := List.all_eq_true.mpr h1
              simp only [processItems, hls, if_pos rfl, if_true, resolveName,
                processImplItems_ok _ _ h1']
              rw [ih _ _ h2]
              simp [itemName, hls, resolveName, itemMethods]
          · simp only [processItems, hls, if_neg hs]
            rw [ih _ _ h2]
            simp [itemName, hls, if_neg hs, itemMethods]

theorem processItems_ok_elim (items : List SynItem) (name : String)
    (acc : List AbiMethod) (p : String × List AbiMethod)
    (h : processItems items name acc = .ok p) :
    items.all itemOk = true ∧
      p = (items.foldl itemName name, acc ++ items.flatMap itemMethods) := by
  induction items generalizing name acc with
  | nil =>
    simp only [processItems, Except.ok.injEq] at h
    simp [← h]
  | cons it rest ih =>
    cases it with
    | otherTop =>
      simp only [processItems] at h
      obtain ⟨hrest, hr⟩ := ih _ _ h
      exact ⟨by simp [List.all_cons, itemOk, hrest],
        by simp [hr, itemName, itemMethods]⟩
    | implItem ii =>
      obtain ⟨tr, sty, iits⟩ := ii
      cases tr with
      | none =>
        simp only [processItems] at h
        obtain ⟨hrest, hr⟩ := ih _ _ h
        exact ⟨by simp [List.all_cons, itemOk, hrest],
          by simp [hr, itemName, itemMethods]⟩
      | some tp =>
        cases hls : lastSegment tp.segments with
        | error e =>
          simp only [processItems, hls] at h
          exact absurd h (by simp)
        | ok s =>
          by_cases hs : s = "AlkaneResponder"
          · subst hs
            simp only [processItems, hls, if_pos rfl, if_true] at h
            cases hn : resolveName sty name with
            | error e =>
              rw [hn] at h
              exact absurd h (by simp)
            | ok nm =>
              rw [hn] at h
              cases hm : processImplItems iits acc with
              | error e =>
                rw [hm] at h
                exact absurd h (by simp)
              | ok acc' =>
                rw [hm] at h
                obtain ⟨hmem, hr⟩ := processImplItems_ok_elim iits acc acc' hm
                obtain ⟨hrest, hr2⟩ := ih _ _ h
                refine ⟨?_, ?_⟩
                · rw [List.all_cons, itemOk_impl tp sty iits hls nm name hn
                    hmem, hrest]
                  rfl
                · simp [hr2, hr, itemName, hls, hn, itemMethods]
          · simp only [processItems, hls, if_neg hs] at h
            obtain ⟨hrest, hr⟩ := ih _ _ h
            exact ⟨by simp [List.all_cons, itemOk, hls, if_neg hs, hrest],
              by simp [hr, itemName, hls, if_neg hs, itemMethods]⟩

theorem extract_abi_ok_of (f : SynFile) (h : fileOk f = true) :
    extract_abi f = .ok ⟨fileName f, fileMethods f⟩ := by
  simp only [extract_abi, processItems_ok f.items "UnknownContract" [] h]
  simp [fileName, fileMethods]

theorem extract_abi_ok_elim (f : SynFile) (abi : AlkanesABI)
    (h : extract_abi f = .ok abi) :
    fileOk f = true ∧ abi = ⟨fileName f, fileMethods f⟩ := by
  simp only [extract_abi] at h
  cases hp : processItems f.items "UnknownContract" [] with
  | error e =>
    rw [hp] at h
    exact absurd h (by simp)
  | ok p =>
    rw [hp] at h
    obtain ⟨hok, hr⟩ := processItems_ok_elim f.items "UnknownContract" [] p hp
    refine ⟨hok, ?_⟩
    cases p with
    | mk nm ms =>
      simp only [Except.ok.injEq] at h
      simp only [Prod.mk.injEq] at hr
      obtain ⟨hnm, hms⟩ := hr
      rw [← h]
      simp [fileName, fileMethods, hnm, hms]

theorem itemName_of_not_match (it : SynItem) (hm : itemIsMatch it = false)
    (prev : String) : itemName prev it = prev := by
  cases it with
  | otherTop => simp [itemName]
  | implItem ii =>
    obtain ⟨tr, sty, iits⟩ := ii
    cases tr with
    | none => simp [itemName]
    | some tp =>
      cases hls : lastSegment tp.segments with
      | error e => simp [itemName, hls]
      | ok s =>
        by_cases hs : s = "AlkaneResponder"
        · subst hs
          simp [itemIsMatch, hls] at hm
        · simp [itemName, hls, hs]

theorem itemMethods_of_not_match (it : SynItem) (hm : itemIsMatch it = false) :
    itemMethods it = [] := by
  cases it with
  | otherTop => simp [itemMethods]
  | implItem ii =>
    obtain ⟨tr, sty, iits⟩ := ii
    cases tr with
    | none => simp [itemMethods]
    | some tp =>
      cases hls : lastSegment tp.segments with
      | error e => simp [itemMethods, hls]
      | ok s =>
        by_cases hs : s = "AlkaneResponder"
        · subst hs
          simp [itemIsMatch, hls] at hm
        · simp [itemMethods, hls, hs]

theorem itemName_of_match (tp : SynPath) (sty : SynType)
    (iits : List SynImplItem)
    (hls : lastSegment tp.segments = .ok "AlkaneResponder")
    (prev nm : String) (hn : resolveName sty prev = .ok nm) :
    itemName prev (.implItem ⟨some tp, sty, iits⟩) = nm := by
  simp [itemName, hls, hn]

theorem itemMethods_of_match (tp : SynPath) (sty : SynType)
    (iits : List SynImplItem)
    (hls : lastSegment tp.segments = .ok "AlkaneResponder") :
    itemMethods (.implItem ⟨some tp, sty, iits⟩) =
      iits.flatMap implItemMethods := by
  simp [itemMethods, hls]

theorem foldl_itemName_of_none (l : List SynItem)
    (h : ∀ it ∈ l, itemIsMatch it = false) (prev : String) :
    l.foldl itemName prev = prev := by
  induction l generalizing prev with
  | nil => rfl
  | cons it rest ih =>
    rw [List.foldl_cons, itemName_of_not_match it (h it (by simp)) prev]
    exact ih (fun x hx => h x (by simp [hx])) prev

theorem flatMap_itemMethods_of_none (l : List SynItem)
    (h : ∀ it ∈ l, itemIsMatch it = false) :
    l.flatMap itemMethods = [] := by
  induction l with
  | nil => rfl
  | cons it rest ih =>
    rw [List.flatMap_cons, itemMethods_of_not_match it (h it (by simp))]
    simpa using ih (fun x hx => h x (by simp [hx]))

theorem flatMap_stmtMethods_of_none (l : List SynStmt)
    (h : ∀ s ∈ l, isBareMatch s = false) :
    l.flatMap stmtMethods = [] := by
  induction l with
  | nil => rfl
  | cons s rest ih =>
    rw [List.flatMap_cons, stmtMethods_of_not_bare s (h s (by simp))]
    simpa using ih (fun x hx => h x (by simp [hx]))

theorem all_stmtOk_of_none (l : List SynStmt)
    (h : ∀ s ∈ l, isBareMatch s = false) : l.all stmtOk = true :=
  List.all_eq_true.mpr fun s hs => stmtOk_of_not_bare s (h s hs)

theorem armMethod_opcode (arms : List (SynPat × SynExpr)) :
    (arms.filterMap armMethod).map (fun m => m.opcode) =
      arms.filterMap declaredArmOpcode := by
  induction arms with
  | nil => rfl
  | cons a rest ih =>
    obtain ⟨pat, body⟩ := a
    cases pat with
    | lit l =>
      cases l with
      | int token =>
        cases hb : base10_parse_u64 token with
        | ok n => simp [armMethod, declaredArmOpcode, hb, ih]
        | error e => simp [armMethod, declaredArmOpcode, hb, ih]
      | other => simp [armMethod, declaredArmOpcode, ih]
    | wild => simp [armMethod, declaredArmOpcode, ih]
    | ident nm => simp [armMethod, declaredArmOpcode, ih]
    | range => simp [armMethod, declaredArmOpcode, ih]
    | other => simp [armMethod, declaredArmOpcode, ih]

theorem stmtMethods_opcode (s : SynStmt) :
    (stmtMethods s).map (fun m => m.opcode) = declaredStmtOpcodes s := by
  cases s with
  | exprStmt e b =>
    cases e <;> simp [stmtMethods, declaredStmtOpcodes, armMethod_opcode]
  | letStmt i => rfl
  | itemStmt => rfl
  | otherStmt => rfl

theorem implItemMethods_opcode (it : SynImplItem) :
    (implItemMethods it).map (fun m => m.opcode) =
      declaredImplItemOpcodes it := by
  cases it with
  | fn ident stmts =>
    by_cases he : ident = "execute"
    · subst he
      simp only [implItemMethods, declaredImplItemOpcodes, if_pos rfl,
        if_true]
      rw [List.map_flatMap]
      exact List.flatMap_congr fun s _ => stmtMethods_opcode s
    · simp [implItemMethods, declaredImplItemOpcodes, he]
  | otherItem => rfl

theorem itemMethods_opcode (it : SynItem) :
    (itemMethods it).map (fun m => m.opcode) = declaredItemOpcodes it := by
  cases it with
  | implItem ii =>
    obtain ⟨tr, sty, iits⟩ := ii
    cases tr with
    | none => simp [itemMethods, declaredItemOpcodes, itemIsMatch]
    | some tp =>
      cases hls : lastSegment tp.segments with
      | error e => simp [itemMethods, declaredItemOpcodes, itemIsMatch, hls]
      | ok s =>
        by_cases hs : s = "AlkaneResponder"
        · subst hs
          simp only [itemMethods, declaredItemOpcodes, itemIsMatch, hls,
            if_pos rfl, if_true]
          rw [List.map_flatMap]
          exact List.flatMap_congr fun it _ => implItemMethods_opcode it
        · simp [itemMethods, declaredItemOpcodes, itemIsMatch, hls, hs]
  | otherTop => rfl

theorem fileMethods_opcode (f : SynFile) :
    (fileMethods f).map (fun m => m.opcode) = declaredOpcodes f := by
  simp only [fileMethods, declaredOpcodes]
  rw [List.map_flatMap]
  exact List.flatMap_congr fun it _ => itemMethods_opcode it

theorem flatMap_itemMethods_filter (l : List SynItem) :
    l.flatMap itemMethods = (l.filter itemIsMatch).flatMap itemMethods := by
  induction l with
  | nil => rfl
  | cons it rest ih =>
    by_cases hm : itemIsMatch it = true
    · simp [List.filter_cons, hm, ih]
    · have hm' : itemIsMatch it = false := by simpa using hm
      simp [List.filter_cons, hm', itemMethods_of_not_match it hm', ih]

/-!
## Claim theorems
-/

/-- Claim C6: for every input on which extraction succeeds, the methods in
the result carry the opcodes of the integer-literal arms in exactly the
order the arms are declared in the source (the list is not sorted by
opcode). -/
theorem C6_order_preservation (f : SynFile) (abi : AlkanesABI)
    (h : extract_abi f = .ok abi) :
    abi.methods.map (fun m => m.opcode) = declaredOpcodes f := by
  obtain ⟨-, habi⟩ := extract_abi_ok_elim f abi h
  rw [habi]
  exact fileMethods_opcode f

/-- Witness for C6: on arms declared `5 => .., 1 => ..` the extracted
methods carry opcodes `[5, 1]`, not `[1, 5]`. -/
theorem C6_order_preservation_witness :
    extract_abi exFileC6 =
      .ok ⟨"Foo", [⟨"method_5", 5, [], []⟩, ⟨"method_1", 1, [], []⟩]⟩ ∧
    List.map (fun m => m.opcode)
        [(⟨"method_5", 5, [], []⟩ : AbiMethod), ⟨"method_1", 1, [], []⟩] =
      declaredOpcodes exFileC6 ∧
    declaredOpcodes exFileC6 = [5, 1] :=
  ⟨by decide,
   C6_order_preservation exFileC6
     ⟨"Foo", [⟨"method_5", 5, [], []⟩, ⟨"method_1", 1, [], []⟩]⟩ (by decide),
   by decide⟩

/-- Claim C7: a syntactically valid module (every trait path resolves) that
contains no trait implementation whose trait's last path segment is
`AlkaneResponder` extracts successfully to the default name
`UnknownContract` with an empty method list. -/
theorem C7_no_matching_impl (f : SynFile)
    (hv : ∀ it ∈ f.items, itemOk it = true)
    (hn : ∀ it ∈ f.items, itemIsMatch it = false) :
    extract_abi f = .ok ⟨"UnknownContract", []⟩ := by
  have hOk : fileOk f = true := List.all_eq_true.mpr hv
  rw [extract_abi_ok_of f hOk]
  rw [show fileName f = "UnknownContract" from
    foldl_itemName_of_none f.items hn "UnknownContract"]
  rw [show fileMethods f = [] from flatMap_itemMethods_of_none f.items hn]

/-- Witness for C7: a module with a non-impl item, a `Display` impl (whose
`execute` dispatch is ignored), and an inherent impl. -/
theorem C7_no_matching_impl_witness :
    extract_abi exFileC7 = .ok ⟨"UnknownContract", []⟩ :=
  C7_no_matching_impl exFileC7 (by decide) (by decide)

/-- Claim C10: extraction is deterministic — two runs on equal parsed
inputs give equal ABI results and equal printed output. -/
theorem C10_deterministic (f g : SynFile) (h : f = g) :
    extract_abi f = extract_abi g ∧ runOutput f = runOutput g ∧
      runExitCode f = runExitCode g := by
  subst h
  exact ⟨rfl, rfl, rfl⟩

/-- Witness for C10 at a concrete module. -/
theorem C10_deterministic_witness :
    extract_abi exFileC10 = extract_abi exFileC10 ∧
      runOutput exFileC10 = runOutput exFileC10 ∧
      runExitCode exFileC10 = runExitCode exFileC10 :=
  C10_deterministic exFileC10 exFileC10 rfl

theorem resolveName_of_nonpath (sty : SynType)
    (hnp : ∀ p : SynPath, sty ≠ .path p) (name : String) :
    resolveName sty name = .ok name := by
  cases sty with
  | path p => exact absurd rfl (hnp p)
  | tuple => rfl
  | reference => rfl
  | otherTy => rfl

theorem itemOk_of_parts (ii : SynItemImpl) (tp : SynPath)
    (htrait : ii.trait_ = some tp)
    (hlast : lastSegment tp.segments = .ok "AlkaneResponder")
    (nm name : String) (hn : resolveName ii.self_ty name = .ok nm)
    (hmem : ii.items.all implItemOk = true) :
    itemOk (.implItem ii) = true := by
  cases hsty : ii.self_ty with
  | path p' =>
    rw [hsty] at hn
    simp only [resolveName] at hn
    simp [itemOk, htrait, hlast, hsty, exceptOk, hn, hmem]
  | tuple => simp [itemOk, htrait, hlast, hsty, hmem]
  | reference => simp [itemOk, htrait, hlast, hsty, hmem]
  | otherTy => simp [itemOk, htrait, hlast, hsty, hmem]

theorem itemName_of_parts (ii : SynItemImpl) (tp : SynPath)
    (htrait : ii.trait_ = some tp)
    (hlast : lastSegment tp.segments = .ok "AlkaneResponder")
    (prev nm : String) (hn : resolveName ii.self_ty prev = .ok nm) :
    itemName prev (.implItem ii) = nm := by
  simp [itemName, htrait, hlast, hn]

theorem itemMethods_of_parts (ii : SynItemImpl) (tp : SynPath)
    (htrait : ii.trait_ = some tp)
    (hlast : lastSegment tp.segments = .ok "AlkaneResponder") :
    itemMethods (.implItem ii) = ii.items.flatMap implItemMethods := by
  simp [itemMethods, htrait, hlast]

/-- Claim C5: an arm with an integer-literal pattern whose token does not
denote a `u64` (it overflows, or is not a digit string) inside a reachable
dispatch match makes the whole run terminate abnormally: non-zero exit
status and no ABI printed on stdout. -/
theorem C5_fatal_literal (f : SynFile) (ii : SynItemImpl) (tp : SynPath)
    (stmts : List SynStmt) (arms : List (SynPat × SynExpr))
    (pat : SynPat) (body : SynExpr) (token : String) (semi : Bool)
    (hit : SynItem.implItem ii ∈ f.items)
    (htrait : ii.trait_ = some tp)
    (hlast : lastSegment tp.segments = .ok "AlkaneResponder")
    (hfn : SynImplItem.fn "execute" stmts ∈ ii.items)
    (hstmt : SynStmt.exprStmt (.matchE arms) semi ∈ stmts)
    (harm : (pat, body) ∈ arms)
    (hpat : pat = .lit (.int token))
    (hbad : exceptOk (base10_parse_u64 token) = false) :
    runOutput f = none ∧ runExitCode f ≠ 0 := by
  have hofk : fileOk f = false := by
    cases hfk : fileOk f with
    | false => rfl
    | true =>
      exfalso
      have h1 := List.all_eq_true.mp
        (show f.items.all itemOk = true from hfk) _ hit
      simp only [itemOk, htrait, hlast, if_pos rfl, if_true,
        Bool.and_eq_true] at h1
      obtain ⟨-, hall⟩ := h1
      have h2 := List.all_eq_true.mp hall _ hfn
      simp only [implItemOk, if_pos rfl, if_true] at h2
      have h3 := List.all_eq_true.mp h2 _ hstmt
      simp only [stmtOk] at h3
      have h4 := List.all_eq_true.mp h3 _ harm
      rw [hpat] at h4
      simp only [armOk] at h4
      rw [h4] at hbad
      exact Bool.noConfusion hbad
  cases hx : extract_abi f with
  | ok abi =>
    have hgood := (extract_abi_ok_elim f abi hx).1
    rw [hofk] at hgood
    exact absurd hgood (by simp)
  | error e =>
    refine ⟨?_, ?_⟩
    · simp [runOutput, hx]
    · simp [runExitCode, hx]

/-- Witness for C5: the literal `18446744073709551616 = 2^64` overflows
`u64`; the run prints nothing and exits with the panic status. -/
theorem C5_fatal_literal_witness :
    runOutput exFileC5 = none ∧ runExitCode exFileC5 ≠ 0 :=
  C5_fatal_literal exFileC5
    ⟨some ⟨["AlkaneResponder"]⟩, .path ⟨["Foo"]⟩,
      [.fn "execute"
        [.exprStmt (.matchE
          [(.lit (.int "18446744073709551616"), .otherE)]) true]]⟩
    ⟨["AlkaneResponder"]⟩
    [.exprStmt (.matchE
      [(.lit (.int "18446744073709551616"), .otherE)]) true]
    [(.lit (.int "18446744073709551616"), .otherE)]
    (.lit (.int "18446744073709551616")) .otherE
    "18446744073709551616" true
    (List.mem_singleton.mpr rfl) rfl rfl
    (List.mem_singleton.mpr rfl) (List.mem_singleton.mpr rfl)
    (List.mem_singleton.mpr rfl) rfl (by decide)

/-- Claim C8 (negative half, fully general): a matching implementation
whose `execute` body has no bare match statement-expression at the top
level — every match being let-bound, return-wrapped, parenthesized, or
nested inside an `if`, a loop, or an inner block — contributes no methods;
the listed statement shapes are never recognized as dispatch matches. -/
theorem C8_only_bare_match (f : SynFile) (ii : SynItemImpl) (tp p : SynPath)
    (nm : String) (stmts : List SynStmt)
    (hitems : f.items = [.implItem ii])
    (htrait : ii.trait_ = some tp)
    (hlast : lastSegment tp.segments = .ok "AlkaneResponder")
    (hself : ii.self_ty = .path p)
    (hname : lastSegment p.segments = .ok nm)
    (hmembers : ii.items = [.fn "execute" stmts])
    (hbare : ∀ s ∈ stmts, isBareMatch s = false) :
    extract_abi f = .ok ⟨nm, []⟩ ∧
    (∀ (e : SynExpr) (b : Bool),
      isBareMatch (.exprStmt (.ret e) b) = false) ∧
    (∀ e : SynExpr, isBareMatch (.letStmt e) = false) ∧
    (∀ (ss : List SynStmt) (b : Bool),
      isBareMatch (.exprStmt (.ifE ss) b) = false) ∧
    (∀ (ss : List SynStmt) (b : Bool),
      isBareMatch (.exprStmt (.loopE ss) b) = false) ∧
    (∀ (ss : List SynStmt) (b : Bool),
      isBareMatch (.exprStmt (.blockE ss) b) = false) ∧
    (∀ (e : SynExpr) (b : Bool),
      isBareMatch (.exprStmt (.paren e) b) = false) := by
  have hrn : resolveName ii.self_ty "UnknownContract" = .ok nm := by
    rw [hself]
    simpa [resolveName] using hname
  have hstok : stmts.all stmtOk = true := all_stmtOk_of_none stmts hbare
  have hiiok : ii.items.all implItemOk = true := by
    rw [hmembers]
    simp [implItemOk, hstok]
  have hfOk : fileOk f = true := by
    rw [fileOk, hitems]
    simp [itemOk_of_parts ii tp htrait hlast nm "UnknownContract" hrn hiiok]
  refine ⟨?_, fun e b => rfl, fun e => rfl, fun ss b => rfl, fun ss b => rfl,
    fun ss b => rfl, fun e b => rfl⟩
  rw [extract_abi_ok_of f hfOk]
  have h1 : fileName f = nm := by
    rw [fileName, hitems]
    simp [itemName_of_parts ii tp htrait hlast "UnknownContract" nm hrn]
  have h2 : fileMethods f = [] := by
    rw [fileMethods, hitems]
    simp [itemMethods_of_parts ii tp htrait hlast, hmembers, implItemMethods,
      flatMap_stmtMethods_of_none stmts hbare]
  rw [h1, h2]

/-- Witness for C8: matches bound by `let`, wrapped in `return`, nested in
an `if` branch, nested in an inner block, and parenthesized all contribute
nothing. -/
theorem C8_only_bare_match_witness :
    extract_abi exFileC8 = .ok ⟨"Foo", []⟩ :=
  (C8_only_bare_match exFileC8
    ⟨some ⟨["AlkaneResponder"]⟩, .path ⟨["Foo"]⟩,
      [.fn "execute"
        [.letStmt (.matchE [(.lit (.int "3"), .otherE)]),
         .exprStmt (.ret (.matchE [(.lit (.int "4"), .otherE)])) true,
         .exprStmt (.ifE
           [.exprStmt (.matchE [(.lit (.int "5"), .otherE)]) true]) false,
         .exprStmt (.blockE
           [.exprStmt (.matchE [(.lit (.int "6"), .otherE)]) true]) true,
         .exprStmt (.paren (.matchE [(.lit (.int "8"), .otherE)])) true]]⟩
    ⟨["AlkaneResponder"]⟩ ⟨["Foo"]⟩ "Foo"
    [.letStmt (.matchE [(.lit (.int "3"), .otherE)]),
     .exprStmt (.ret (.matchE [(.lit (.int "4"), .otherE)])) true,
     .exprStmt (.ifE
       [.exprStmt (.matchE [(.lit (.int "5"), .otherE)]) true]) false,
     .exprStmt (.blockE
       [.exprStmt (.matchE [(.lit (.int "6"), .otherE)]) true]) true,
     .exprStmt (.paren (.matchE [(.lit (.int "8"), .otherE)])) true]
    rfl rfl rfl rfl rfl rfl (by decide)).1

/-- Counterexample to C3 as stated: on a module whose only item is a
matching implementation with a tuple self type, extraction does NOT abort —
it succeeds, keeping the default name and extracting the opcode. -/
theorem C3_counterexample :
    extract_abi exFileC3 =
      .ok ⟨"UnknownContract", [⟨"method_7", 7, [], []⟩]⟩ ∧
    ∀ e : ExtractError, extract_abi exFileC3 ≠ .error e := by
  refine ⟨by decide, fun e h => ?_⟩
  have hx : extract_abi exFileC3 =
      .ok ⟨"UnknownContract", [⟨"method_7", 7, [], []⟩]⟩ := by decide
  rw [hx] at h
  exact Except.noConfusion h

/-- Claim C3 as amended: when the single matching implementation's self
type is not a path type, extraction continues without aborting — the
contract name keeps its previous value (the default `UnknownContract`) and
the `execute` method's opcodes are still extracted. -/
theorem C3_amended_nonpath_continues (f : SynFile) (ii : SynItemImpl)
    (tp : SynPath)
    (hitems : f.items = [.implItem ii])
    (htrait : ii.trait_ = some tp)
    (hlast : lastSegment tp.segments = .ok "AlkaneResponder")
    (hself : ∀ p : SynPath, ii.self_ty ≠ .path p)
    (hok : ii.items.all implItemOk = true) :
    extract_abi f =
      .ok ⟨"UnknownContract", ii.items.flatMap implItemMethods⟩ := by
  have hrn := resolveName_of_nonpath ii.self_ty hself "UnknownContract"
  have hiok := itemOk_of_parts ii tp htrait hlast
    "UnknownContract" "UnknownContract" hrn hok
  have hfOk : fileOk f = true := by
    rw [fileOk, hitems]
    simp [hiok]
  rw [extract_abi_ok_of f hfOk]
  have h1 : fileName f = "UnknownContract" := by
    rw [fileName, hitems]
    simp [itemName_of_parts ii tp htrait hlast
      "UnknownContract" "UnknownContract" hrn]
  have h2 : fileMethods f = ii.items.flatMap implItemMethods := by
    rw [fileMethods, hitems]
    simp [itemMethods_of_parts ii tp htrait hlast]
  rw [h1, h2]

/-- Witness for the amended C3 on the tuple-typed implementation. -/
theorem C3_amended_witness :
    extract_abi exFileC3 =
      .ok ⟨"UnknownContract", [⟨"method_7", 7, [], []⟩]⟩ :=
  C3_amended_nonpath_continues exFileC3 exImplC3
    ⟨["alkanes", "AlkaneResponder"]⟩ rfl rfl rfl
    (fun p h => SynType.noConfusion h) (by decide)

/-- Claim C9: a matching implementation whose self type is not a path type
does not abort extraction: the contract name keeps whatever value the
earlier items produced, while the implementation's `execute` opcodes are
still appended to the method list. -/
theorem C9_nonpath_keeps_previous_name (f : SynFile) (pre : List SynItem)
    (ii : SynItemImpl) (tp : SynPath)
    (hitems : f.items = pre ++ [.implItem ii])
    (hpre : pre.all itemOk = true)
    (htrait : ii.trait_ = some tp)
    (hlast : lastSegment tp.segments = .ok "AlkaneResponder")
    (hself : ∀ p : SynPath, ii.self_ty ≠ .path p)
    (hok : ii.items.all implItemOk = true) :
    extract_abi f =
      .ok ⟨pre.foldl itemName "UnknownContract",
        pre.flatMap itemMethods ++ ii.items.flatMap implItemMethods⟩ := by
  have hrn := resolveName_of_nonpath ii.self_ty hself
    (pre.foldl itemName "UnknownContract")
  have hiok := itemOk_of_parts ii tp htrait hlast _ _ hrn hok
  have hfOk : fileOk f = true := by
    rw [fileOk, hitems, List.all_append]
    simp [hpre, hiok]
  rw [extract_abi_ok_of f hfOk]
  have h1 : fileName f = pre.foldl itemName "UnknownContract" := by
    rw [fileName, hitems, List.foldl_append]
    simp [itemName_of_parts ii tp htrait hlast _ _ hrn]
  have h2 : fileMethods f =
      pre.flatMap itemMethods ++ ii.items.flatMap implItemMethods := by
    rw [fileMethods, hitems, List.flatMap_append]
    simp [itemMethods_of_parts ii tp htrait hlast]
  rw [h1, h2]

/-- Witness for C9: after an earlier implementation names the contract `X`,
the reference-typed implementation keeps the name `X` and still appends its
opcode 9. -/
theorem C9_nonpath_witness :
    extract_abi exFileC9 =
      .ok ⟨"X", [⟨"method_1", 1, [], []⟩, ⟨"method_9", 9, [], []⟩]⟩ :=
  C9_nonpath_keeps_previous_name exFileC9 exItemsC9pre exImplC9
    ⟨["AlkaneResponder"]⟩ rfl (by decide) rfl rfl
    (fun p h => SynType.noConfusion h) (by decide)

/-- Counterexample to C4 as stated: in an implementation with two `execute`
members (dispatching opcodes 1 and 2 respectively), the extracted methods
include `method_2` from the second `execute` — the output is not just the
first member's `[method_1]`. -/
theorem C4_counterexample :
    extract_abi exFileC4 =
      .ok ⟨"Foo", [⟨"method_1", 1, [], []⟩, ⟨"method_2", 2, [], []⟩]⟩ ∧
    extract_abi exFileC4 ≠ .ok ⟨"Foo", [⟨"method_1", 1, [], []⟩]⟩ :=
  ⟨by decide, by decide⟩

/-- Claim C4 as amended: in a matching implementation containing more than
one member function named `execute` (with any other members interleaved),
ALL `execute` members are processed, in member order: the result's methods
are the concatenation over the whole member list, where every `execute`
member contributes its statements' methods and every other member
contributes nothing. -/
theorem C4_amended_all_executes (f : SynFile) (ii : SynItemImpl)
    (tp p : SynPath) (nm : String)
    (hitems : f.items = [.implItem ii])
    (htrait : ii.trait_ = some tp)
    (hlast : lastSegment tp.segments = .ok "AlkaneResponder")
    (hself : ii.self_ty = .path p)
    (hname : lastSegment p.segments = .ok nm)
    (hmany : 2 ≤ ii.items.countP isExecuteFn)
    (hok : ii.items.all implItemOk = true) :
    extract_abi f = .ok ⟨nm, ii.items.flatMap implItemMethods⟩ ∧
    (∀ stmts : List SynStmt,
      implItemMethods (.fn "execute" stmts) = stmts.flatMap stmtMethods) ∧
    (∀ (ident : String) (stmts : List SynStmt), ident ≠ "execute" →
      implItemMethods (.fn ident stmts) = []) ∧
    implItemMethods .otherItem = [] := by
  have hrn : resolveName ii.self_ty "UnknownContract" = .ok nm := by
    rw [hself]
    simpa [resolveName] using hname
  have hfOk : fileOk f = true := by
    rw [fileOk, hitems]
    simp [itemOk_of_parts ii tp htrait hlast nm "UnknownContract" hrn hok]
  refine ⟨?_, fun stmts => by simp [implItemMethods],
    fun ident stmts hne => by simp [implItemMethods, hne], rfl⟩
  rw [extract_abi_ok_of f hfOk]
  have hn : fileName f = nm := by
    rw [fileName, hitems]
    simp [itemName_of_parts ii tp htrait hlast "UnknownContract" nm hrn]
  have hm : fileMethods f = ii.items.flatMap implItemMethods := by
    rw [fileMethods, hitems]
    simp [itemMethods_of_parts ii tp htrait hlast]
  rw [hn, hm]

/-- Witness for the amended C4: three `execute` members, interleaved with a
`helper` function and a non-function member, all contribute in member
order — `[method_1, method_2, method_3]`, with `helper`'s dispatch
ignored. -/
theorem C4_amended_witness :
    extract_abi exFileC4b =
      .ok ⟨"Foo", [⟨"method_1", 1, [], []⟩, ⟨"method_2", 2, [], []⟩,
        ⟨"method_3", 3, [], []⟩]⟩ :=
  (C4_amended_all_executes exFileC4b
    ⟨some ⟨["AlkaneResponder"]⟩, .path ⟨["Foo"]⟩, membersC4b⟩
    ⟨["AlkaneResponder"]⟩ ⟨["Foo"]⟩ "Foo"
    rfl rfl rfl rfl rfl (by decide) (by decide)).1

/-- Claim C2: with several matching implementations, the result's name is
the contract name of the last matching implementation in source order (here
`i2`, every later item being non-matching), and the methods are the source-
order concatenation of all matching implementations' methods — items before
`i2` contribute exactly their matching implementations' methods, with no
deduplication applied anywhere. -/
theorem C2_multiple_impls (f : SynFile) (pre post : List SynItem)
    (i2 : SynItemImpl) (tp2 p2 : SynPath) (nm2 : String)
    (hitems : f.items = pre ++ .implItem i2 :: post)
    (hpreOk : pre.all itemOk = true)
    (hprematch : ∃ it ∈ pre, itemIsMatch it = true)
    (hpostOk : ∀ it ∈ post, itemOk it = true)
    (hpostNm : ∀ it ∈ post, itemIsMatch it = false)
    (htrait : i2.trait_ = some tp2)
    (hlast : lastSegment tp2.segments = .ok "AlkaneResponder")
    (hself : i2.self_ty = .path p2)
    (hname : lastSegment p2.segments = .ok nm2)
    (hok2 : i2.items.all implItemOk = true) :
    extract_abi f =
      .ok ⟨nm2, pre.flatMap itemMethods ++ itemMethods (.implItem i2) ++
        post.flatMap itemMethods⟩ ∧
    post.flatMap itemMethods = [] ∧
    pre.flatMap itemMethods =
      (pre.filter itemIsMatch).flatMap itemMethods := by
  have hpost0 : post.flatMap itemMethods = [] :=
    flatMap_itemMethods_of_none post hpostNm
  have hrn : resolveName i2.self_ty (pre.foldl itemName "UnknownContract") =
      .ok nm2 := by
    rw [hself]
    simpa [resolveName] using hname
  have hiok := itemOk_of_parts i2 tp2 htrait hlast nm2 _ hrn hok2
  have hfOk : fileOk f = true := by
    rw [fileOk, hitems, List.all_append, List.all_cons]
    simp [hpreOk, hiok, List.all_eq_true.mpr hpostOk]
  refine ⟨?_, hpost0, flatMap_itemMethods_filter pre⟩
  rw [extract_abi_ok_of f hfOk]
  have h1 : fileName f = nm2 := by
    rw [fileName, hitems, List.foldl_append, List.foldl_cons]
    rw [itemName_of_parts i2 tp2 htrait hlast _ nm2 hrn]
    exact foldl_itemName_of_none post hpostNm nm2
  have h2 : fileMethods f = pre.flatMap itemMethods ++
      (itemMethods (.implItem i2) ++ post.flatMap itemMethods) := by
    rw [fileMethods, hitems, List.flatMap_append, List.flatMap_cons]
  rw [h1, h2]
  simp [List.append_assoc]

/-- Witness for C2: implementations on `X` (opcode 10) and `Y` (opcodes 10
and 3) yield name `Y` and the duplicated opcode 10 twice, in source
order. -/
theorem C2_multiple_impls_witness :
    extract_abi exFileC2 =
      .ok ⟨"Y", [⟨"method_10", 10, [], []⟩, ⟨"method_10", 10, [], []⟩,
        ⟨"method_3", 3, [], []⟩]⟩ :=
  (C2_multiple_impls exFileC2 [.implItem exImplC2X] [] exImplC2Y
    ⟨["AlkaneResponder"]⟩ ⟨["Y"]⟩ "Y" rfl (by decide)
    ⟨.implItem exImplC2X, List.mem_singleton.mpr rfl, by decide⟩
    (by simp) (by simp) rfl rfl rfl rfl (by decide)).1

/-- Claim C1: a module whose single matching implementation is on a
path-named type with one `execute` whose body holds one top-level dispatch
match extracts that type's name and one `AbiMethod` per integer-literal
arm, named `method_` followed by the decimal opcode, with empty inputs and
outputs; non-literal arms (wildcards, bindings, ...) contribute no
entry. -/
theorem C1_single_impl (f : SynFile) (pre post : List SynItem)
    (ii : SynItemImpl) (tp p : SynPath) (nm : String)
    (arms : List (SynPat × SynExpr)) (semi : Bool)
    (spre spost : List SynStmt)
    (hitems : f.items = pre ++ .implItem ii :: post)
    (hctxOk : ∀ it ∈ pre ++ post, itemOk it = true)
    (hctxNm : ∀ it ∈ pre ++ post, itemIsMatch it = false)
    (htrait : ii.trait_ = some tp)
    (hlast : lastSegment tp.segments = .ok "AlkaneResponder")
    (hself : ii.self_ty = .path p)
    (hname : lastSegment p.segments = .ok nm)
    (hmembers : ii.items =
      [.fn "execute" (spre ++ .exprStmt (.matchE arms) semi :: spost)])
    (hbare : ∀ s ∈ spre ++ spost, isBareMatch s = false)
    (harms : arms.all armOk = true) :
    extract_abi f = .ok ⟨nm, arms.filterMap armMethod⟩ ∧
    (∀ a ∈ arms, ∀ (token : String) (n : Nat),
      a.1 = .lit (.int token) → base10_parse_u64 token = .ok n →
      armMethod a = some ⟨"method_" ++ toString n, n, [], []⟩) ∧
    (∀ a ∈ arms, (∀ token : String, a.1 ≠ .lit (.int token)) →
      armMethod a = none) := by
  have hpreOk : ∀ it ∈ pre, itemOk it = true :=
    fun it h => hctxOk it (List.mem_append_left _ h)
  have hpostOk : ∀ it ∈ post, itemOk it = true :=
    fun it h => hctxOk it (List.mem_append_right _ h)
  have hpreNm : ∀ it ∈ pre, itemIsMatch it = false :=
    fun it h => hctxNm it (List.mem_append_left _ h)
  have hpostNm : ∀ it ∈ post, itemIsMatch it = false :=
    fun it h => hctxNm it (List.mem_append_right _ h)
  have hrn : resolveName ii.self_ty "UnknownContract" = .ok nm := by
    rw [hself]
    simpa [resolveName] using hname
  have hsprebare : ∀ s ∈ spre, isBareMatch s = false :=
    fun s h => hbare s (List.mem_append_left _ h)
  have hspostbare : ∀ s ∈ spost, isBareMatch s = false :=
    fun s h => hbare s (List.mem_append_right _ h)
  have hstok :
      (spre ++ SynStmt.exprStmt (.matchE arms) semi :: spost).all stmtOk =
        true := by
    rw [List.all_append, List.all_cons]
    simp [all_stmtOk_of_none spre hsprebare,
      all_stmtOk_of_none spost hspostbare, stmtOk, harms]
  have hiiok : ii.items.all implItemOk = true := by
    rw [hmembers]
    simp [implItemOk, hstok]
  have hiok := itemOk_of_parts ii tp htrait hlast nm "UnknownContract" hrn
    hiiok
  have hfOk : fileOk f = true := by
    rw [fileOk, hitems, List.all_append, List.all_cons]
    simp [List.all_eq_true.mpr hpreOk, List.all_eq_true.mpr hpostOk, hiok]
  refine ⟨?_, ?_, ?_⟩
  · rw [extract_abi_ok_of f hfOk]
    have hn1 : fileName f = nm := by
      rw [fileName, hitems, List.foldl_append, List.foldl_cons]
      rw [foldl_itemName_of_none pre hpreNm]
      rw [itemName_of_parts ii tp htrait hlast "UnknownContract" nm hrn]
      exact foldl_itemName_of_none post hpostNm nm
    have hm1 : fileMethods f = arms.filterMap armMethod := by
      rw [fileMethods, hitems, List.flatMap_append, List.flatMap_cons]
      rw [flatMap_itemMethods_of_none pre hpreNm,
        flatMap_itemMethods_of_none post hpostNm]
      rw [itemMethods_of_parts ii tp htrait hlast, hmembers]
      simp [implItemMethods, List.flatMap_append,
        flatMap_stmtMethods_of_none spre hsprebare,
        flatMap_stmtMethods_of_none spost hspostbare, stmtMethods]
    rw [hn1, hm1]
  · intro a ha token n hp hb
    obtain ⟨pat, body⟩ := a
    simp only at hp
    subst hp
    simp [armMethod, hb]
  · intro a ha hnot
    obtain ⟨pat, body⟩ := a
    cases pat with
    | lit l =>
      cases l with
      | int token => exact absurd rfl (hnot token)
      | other => rfl
    | wild => rfl
    | ident x => rfl
    | range => rfl
    | other => rfl

/-- Witness for C1 on the spec's example: `Foo` with arms `0`, `77` and a
wildcard. -/
theorem C1_single_impl_witness :
    extract_abi exFileC1 =
      .ok ⟨"Foo", [⟨"method_0", 0, [], []⟩, ⟨"method_77", 77, [], []⟩]⟩ :=
  (C1_single_impl exFileC1 [] []
    ⟨some ⟨["AlkaneResponder"]⟩, .path ⟨["Foo"]⟩,
      [.fn "execute" [.exprStmt (.matchE armsFoo) true]]⟩
    ⟨["AlkaneResponder"]⟩ ⟨["Foo"]⟩ "Foo" armsFoo true [] []
    rfl (by simp) (by simp) rfl rfl rfl rfl rfl (by simp) (by decide)).1

end Alkali
